import Mathlib

/-!
Verification of the earring-pair segmentation and placement-geometry core
(`src/get_earring.py`, `src/compute_points.py`).

Pixels are modelled as integer (row, column) pairs; an image is a function
from coordinates to the relevant channel value (first RGB channel for the
flood fill, alpha channel for the centroid/anchor computations), together
with explicit row/column counts.  The worklist flood fill of
`get_earring.flood_fill` and the background flood used by
`scipy.ndimage.binary_fill_holes` inside `fill_contour` are both instances
of a single fuelled worklist search `searchLoopF`, parameterised by the pop
policy so that order-(in)dependence of the traversal can be stated.
-/

namespace Earring

open Relation

abbrev Pix : Type := ℤ × ℤ

/-- Membership of a pixel in a `rows × cols` image (`0 <= nx < rows and
0 <= ny < cols` in `flood_fill` / `get_contour`). -/
def inBounds (rows cols : ℕ) (p : Pix) : Prop :=
  0 ≤ p.1 ∧ p.1 < (rows : ℤ) ∧ 0 ≤ p.2 ∧ p.2 < (cols : ℤ)

instance (rows cols : ℕ) (p : Pix) : Decidable (inBounds rows cols p) := by
  unfold inBounds; infer_instance

/-- All in-bounds pixels of a `rows × cols` image, as a finite set. -/
def gridF (rows cols : ℕ) : Finset Pix :=
  Finset.Icc 0 ((rows : ℤ) - 1) ×ˢ Finset.Icc 0 ((cols : ℤ) - 1)

/-- All in-bounds pixels of a `rows × cols` image, as a list (row-major). -/
def gridList (rows cols : ℕ) : List Pix :=
  (List.range (rows * cols)).map fun k => (((k / cols : ℕ) : ℤ), ((k % cols : ℕ) : ℤ))

/-! ## Generic fuelled worklist search

`searchLoopF next policy fuel t visited stack` mirrors the `while stack:`
loop of `flood_fill`: pop one entry (the index is chosen by `policy` from
the step counter `t` and the stack length, so every pop order is an
instance), skip it if already visited, otherwise record it and push its
`next`-successors.  The recursion is on an explicit fuel so that the
function evaluates by kernel reduction; the theorems below show that any
fuel at least `9·|frontier| + |stack|` reaches the fixpoint. -/

def searchLoopF (next : Pix → List Pix) (policy : ℕ → ℕ → ℕ) :
    ℕ → ℕ → Finset Pix → List Pix → Finset Pix
  | 0, _, visited, _ => visited
  | _ + 1, _, visited, [] => visited
  | fuel + 1, t, visited, a :: l =>
    let stack := a :: l
    let i : Fin stack.length :=
      ⟨policy t stack.length % stack.length, Nat.mod_lt _ (Nat.succ_pos _)⟩
    let pixel := stack.get i
    let rest := stack.eraseIdx i.1
    if pixel ∈ visited then
      searchLoopF next policy fuel (t + 1) visited rest
    else
      searchLoopF next policy fuel (t + 1) (insert pixel visited) (rest ++ next pixel)

/-- Fuel budget: the potential `9·|(U ∪ stack) \ visited| + |stack|` strictly
decreases on every loop iteration (pushes cost at most 8 per newly visited
pixel). -/
def searchMeasure (U visited : Finset Pix) (stack : List Pix) : ℕ :=
  9 * ((U ∪ stack.toFinset) \ visited).card + stack.length

/-- A run of the worklist search from an initial stack of sources with an
empty visited set. -/
def searchRun (next : Pix → List Pix) (policy : ℕ → ℕ → ℕ) (fuel : ℕ)
    (sources : List Pix) : Finset Pix :=
  searchLoopF next policy fuel 0 ∅ sources

/-! ## Flood fill (`get_earring.flood_fill`)

The source iterates `for dx in [-1, 0, 1]: for dy in [-1, 0, 1]`, skipping
`(0, 0)`, and pushes every in-bounds neighbour whose first channel value
exceeds 10.  `flood_fill` pops from the end of the Python list (LIFO); the
policy-parameterised `floodFillWith` covers every other pop order. -/

def neighborOffsets : List Pix :=
  [(-1, -1), (-1, 0), (-1, 1), (0, -1), (0, 1), (1, -1), (1, 0), (1, 1)]

/-- 8-adjacency (Chebyshev distance one) between two pixels. -/
def adj8 (a b : Pix) : Prop :=
  a ≠ b ∧ b.1 - a.1 ≤ 1 ∧ a.1 - b.1 ≤ 1 ∧ b.2 - a.2 ≤ 1 ∧ a.2 - b.2 ≤ 1

instance (a b : Pix) : Decidable (adj8 a b) := by
  unfold adj8; infer_instance

/-- Growth-membership test of `flood_fill`: in bounds and first channel
value strictly greater than 10. -/
def floodPred (img : Pix → ℕ) (rows cols : ℕ) (q : Pix) : Prop :=
  inBounds rows cols q ∧ 10 < img q

instance (img : Pix → ℕ) (rows cols : ℕ) (q : Pix) :
    Decidable (floodPred img rows cols q) := by
  unfold floodPred; infer_instance

/-- Neighbours pushed by one iteration of `flood_fill`'s inner loops. -/
def floodNext (img : Pix → ℕ) (rows cols : ℕ) (p : Pix) : List Pix :=
  (neighborOffsets.map fun d => (p.1 + d.1, p.2 + d.2)).filter
    fun q => decide (floodPred img rows cols q)

/-- Fuel sufficient for any flood fill on a `rows × cols` image. -/
def floodFuel (rows cols : ℕ) : ℕ := 9 * (rows * cols + 1) + 1

/-- `flood_fill` with an arbitrary worklist pop policy. -/
def floodFillWith (policy : ℕ → ℕ → ℕ) (img : Pix → ℕ) (rows cols : ℕ)
    (start : Pix) : Finset Pix :=
  searchRun (floodNext img rows cols) policy (floodFuel rows cols) [start]

/-- The source `flood_fill`: Python's `list.pop()` removes the last
element, i.e. the policy always picks the highest index. -/
def flood_fill (img : Pix → ℕ) (rows cols : ℕ) (start : Pix) : Finset Pix :=
  floodFillWith (fun _ n => n - 1) img rows cols start

/-- Chains of 8-adjacent steps whose targets all satisfy `P`. -/
def connVia (P : Pix → Prop) (a b : Pix) : Prop :=
  Relation.ReflTransGen (fun u v => adj8 u v ∧ P v) a b

/-- The 8-connected region of the growth predicate grown from `start`. -/
def floodComponent (img : Pix → ℕ) (rows cols : ℕ) (start : Pix) : Set Pix :=
  {p | connVia (floodPred img rows cols) start p}

/-- A 1×1 image whose only pixel has first channel value 5: a legitimate
seed for `find_nonzero_pixel` (value > 0) that fails the growth test
(value ≤ 10). -/
def imgSeedDim : Pix → ℕ := fun p => if p = (0, 0) then 5 else 0

/-- A 2×2 image holding a two-pixel diagonal blob of bright pixels. -/
def imgBlobTwo : Pix → ℕ := fun p => if p = (0, 0) ∨ p = (1, 1) then 200 else 0

/-! ## Contour extraction (`get_earring.get_contour`)

A cluster member is kept when one of its 8 neighbours is in bounds and not
marked in the cluster mask (`not mask[nx, ny]`). -/

def get_contour (cluster : Finset Pix) (rows cols : ℕ) : Finset Pix :=
  cluster.filter fun p =>
    (neighborOffsets.map fun d => (p.1 + d.1, p.2 + d.2)).any
      fun q => decide (inBounds rows cols q) && !(decide (q ∈ cluster))

/-- A solid axis-aligned rectangle of pixels. -/
def rectC (x1 x2 y1 y2 : ℤ) : Finset Pix :=
  Finset.Icc x1 x2 ×ˢ Finset.Icc y1 y2

/-- The perimeter pixels of a solid rectangle. -/
def rectPerimeter (x1 x2 y1 y2 : ℤ) : Finset Pix :=
  (rectC x1 x2 y1 y2).filter fun p =>
    p.1 = x1 ∨ p.1 = x2 ∨ p.2 = y1 ∨ p.2 = y2

/-! ## Contour filling (`get_earring.fill_contour`)

`fill_contour` rasterises the contour set into a boolean mask and calls
`scipy.ndimage.binary_fill_holes` on it.  The fill itself is an external
library call; it is modelled from the spec (§4.2): with the default
structuring element (square connectivity one, i.e. 4-connectivity),
background pixels connected to the image border stay background and every
other pixel becomes foreground. -/

/-- 4-adjacency (one horizontal or vertical step). -/
def adj4 (a b : Pix) : Prop :=
  (b.1 = a.1 ∧ (b.2 = a.2 + 1 ∨ b.2 = a.2 - 1)) ∨
  (b.2 = a.2 ∧ (b.1 = a.1 + 1 ∨ b.1 = a.1 - 1))

def crossOffsets : List Pix := [(-1, 0), (1, 0), (0, -1), (0, 1)]

/-- Background test during hole filling: in bounds and not a mask pixel. -/
def bgOk (mask : Finset Pix) (rows cols : ℕ) (q : Pix) : Prop :=
  inBounds rows cols q ∧ q ∉ mask

instance (mask : Finset Pix) (rows cols : ℕ) (q : Pix) :
    Decidable (bgOk mask rows cols q) := by
  unfold bgOk; infer_instance

/-- Successors of the background flood used by the hole filling. -/
def bgNext (mask : Finset Pix) (rows cols : ℕ) (p : Pix) : List Pix :=
  (crossOffsets.map fun d => (p.1 + d.1, p.2 + d.2)).filter
    fun q => decide (bgOk mask rows cols q)

/-- Pixels on the outer border of the image. -/
def onBorder (rows cols : ℕ) (p : Pix) : Prop :=
  p.1 = 0 ∨ p.1 = (rows : ℤ) - 1 ∨ p.2 = 0 ∨ p.2 = (cols : ℤ) - 1

instance (rows cols : ℕ) (p : Pix) : Decidable (onBorder rows cols p) := by
  unfold onBorder; infer_instance

/-- Border background pixels: the sources of the background flood. -/
def borderSources (mask : Finset Pix) (rows cols : ℕ) : List Pix :=
  (gridList rows cols).filter fun p =>
    decide (onBorder rows cols p) && !(decide (p ∈ mask))

def fillFuel (rows cols : ℕ) : ℕ := 10 * (rows * cols) + 1

/-- Modelled from the spec: `scipy.ndimage.binary_fill_holes` (the external
library call inside `fill_contour`, §4.2 of the spec) keeps exactly the
background pixels 4-connected to the image border as background; the rest
of the image becomes foreground. -/
def fill_contour (contour : Finset Pix) (rows cols : ℕ) : Finset Pix :=
  gridF rows cols \
    searchRun (bgNext contour rows cols) (fun _ n => n - 1)
      (fillFuel rows cols) (borderSources contour rows cols)

/-- Reachability from some border background pixel through 4-connected
in-bounds background pixels. -/
def bgReachable (mask : Finset Pix) (rows cols : ℕ) (p : Pix) : Prop :=
  ∃ s, (inBounds rows cols s ∧ onBorder rows cols s ∧ s ∉ mask) ∧
    Relation.ReflTransGen (fun u v => adj4 u v ∧ bgOk mask rows cols v) s p

/-! ## Centroids and anchors (`compute_points.py`)

`jewel_center` and `jewel_anchor_point` read an image with
`cv2.imread(..., IMREAD_UNCHANGED)`, check `shape[2] == 4`, threshold the
alpha channel with `cv2.threshold(alpha, 1, 255, THRESH_BINARY)` (output
255 exactly where `alpha > 1`) and take `cv2.moments` of the mask.  The
common factor 255 cancels in every centroid quotient, so moments are
modelled on the 0/1 mask; `int(...)` on the nonnegative quotients is
truncation, i.e. integer division. -/

/-- A decoded image: grid dimensions, channel count (`shape[2]`) and the
alpha channel (`[:, :, 3]`, meaningful when `channels = 4`). -/
structure ImgA where
  rows : ℕ
  cols : ℕ
  channels : ℕ
  alpha : Pix → ℕ

/-- The binary mask of `cv2.threshold(alpha, 1, 255, THRESH_BINARY)`:
set exactly where the alpha value is strictly greater than 1. -/
def binMask (img : ImgA) : Finset Pix :=
  (gridF img.rows img.cols).filter fun p => decide (1 < img.alpha p)

/-- Zeroth moment `m00` of the binary mask (up to the factor 255, which
cancels in the centroid quotients). -/
def m00 (img : ImgA) : ℕ := (binMask img).card

/-- First moment `m10` (the moment coordinate `x` is the column index). -/
def m10 (img : ImgA) : ℤ := ∑ p ∈ binMask img, p.2

/-- First moment `m01` (the moment coordinate `y` is the row index). -/
def m01 (img : ImgA) : ℤ := ∑ p ∈ binMask img, p.1

/-- `compute_points.jewel_center`. -/
def jewel_center (img : ImgA) : Option (ℤ × ℤ) :=
  if img.channels = 4 then
    if m00 img ≠ 0 then
      some (m10 img / (m00 img : ℤ), m01 img / (m00 img : ℤ))
    else none
  else none

/-- `compute_points.jewel_anchor_point`: centroid `x`, and `y` one
eleventh of the way down from the highest to the lowest foreground row
(the inner emptiness re-check of `jewel_ys` mirrors the source; it is
unreachable when `m00 != 0`). -/
def jewel_anchor_point (img : ImgA) : Option (ℤ × ℤ) :=
  if img.channels = 4 then
    if m00 img ≠ 0 then
      if hy : ((binMask img).image Prod.fst).Nonempty then
        some (m10 img / (m00 img : ℤ),
          ((binMask img).image Prod.fst).min' hy +
            (((binMask img).image Prod.fst).max' hy -
              ((binMask img).image Prod.fst).min' hy) / 11)
      else none
    else none
  else none

/-- Modelled from the spec: the claims read the binary mask as the
"nonzero-alpha" mask (`alpha > 0`); the source thresholds at 1
(`alpha > 1`).  This definition follows the spec's words, for comparison
with `binMask`. -/
def binMaskNZ (img : ImgA) : Finset Pix :=
  (gridF img.rows img.cols).filter fun p => decide (0 < img.alpha p)

/-- Modelled from the spec: centroid of the nonzero-alpha mask, the
claims' reading of `jewel_center`. -/
def jewel_center_nonzero (img : ImgA) : Option (ℤ × ℤ) :=
  if img.channels = 4 then
    if (binMaskNZ img).card ≠ 0 then
      some ((∑ p ∈ binMaskNZ img, p.2) / ((binMaskNZ img).card : ℤ),
        (∑ p ∈ binMaskNZ img, p.1) / ((binMaskNZ img).card : ℤ))
    else none
  else none

/-- `get_earring.left_and_right`, on the two loaded cutouts.  `some true`
routes the first cutout to the left slot and the second to the right,
`some false` the converse.  `none` models the uncaught Python `TypeError`
raised by `jewel_center(...)[0]` when a centroid is undefined. -/
def left_and_right (e1 e2 : ImgA) : Option Bool :=
  match jewel_center e1, jewel_center e2 with
  | some c1, some c2 => some (decide (c1.1 < c2.1))
  | _, _ => none

/-- `get_earring.find_nonzero_pixel`: `random.choice` over the pixels with
positive first channel, modelled as the first qualifying pixel in scan
order (the claims depend only on whether any exists). -/
def find_nonzero_pixel (img : Pix → ℕ) (rows cols : ℕ) : Option Pix :=
  ((gridList rows cols).filter fun p => decide (0 < img p)).head?

/-- The inner `adjust` closure of `compute_points.adjust_crop_area`:
Python `//` on the nonnegative `extra` agrees with `Int` division. -/
def adjustSE (start stop size m : ℤ) : ℤ × ℤ :=
  if size < m then
    (start - (m - size) / 2, stop + ((m - size) - (m - size) / 2))
  else if m < size then
    (start + (size - m) / 2, stop - ((size - m) - (size - m) / 2))
  else (start, stop)

/-- `compute_points.adjust_crop_area`, returning `(x, y, x_end, y_end)`. -/
def adjust_crop_area (x y w h : ℤ) (m : ℤ := 224) : ℤ × ℤ × ℤ × ℤ :=
  ((adjustSE x (x + w) w m).1, (adjustSE y (y + h) h m).1,
    (adjustSE x (x + w) w m).2, (adjustSE y (y + h) h m).2)

/-- Closed form of the adjusted crop start for one dimension. -/
def cropStart (start size m : ℤ) : ℤ :=
  if size < m then start - (m - size) / 2
  else if m < size then start + (size - m) / 2
  else start

/-- `compute_points.model_anchor_point`, abstracted over the opaque
earlobe detector's output boxes `(box_x, box_y, box_w, box_h)` on the
adjusted crop.  `none` models the `assert len(detected_loc) != 0`
failure; otherwise the first box's centre, offset by the crop origin
(`int(box_x + box_w / 2)` is integer division for the detector's
nonnegative box coordinates). -/
def model_anchor_point (detections : List (ℤ × ℤ × ℤ × ℤ))
    (x y w h : ℤ) : Option (ℤ × ℤ) :=
  match detections with
  | [] => none
  | d :: _ =>
    some ((adjust_crop_area x y w h 224).1 + (d.1 + d.2.2.1 / 2),
      (adjust_crop_area x y w h 224).2.1 + (d.2.1 + d.2.2.2 / 2))

/-- A 1×10 4-channel cutout with an opaque pixel at column 0 and an
alpha-value-1 pixel at column 9: its thresholded centroid column is 0 but
its nonzero-alpha centroid column is 4. -/
def eAlphaOne : ImgA :=
  ⟨1, 10, 4, fun p => if p = (0, 0) then 255 else if p = (0, 9) then 1 else 0⟩

/-- A 1×10 4-channel cutout with a single opaque pixel at column 2. -/
def eMid : ImgA := ⟨1, 10, 4, fun p => if p = (0, 2) then 255 else 0⟩

/-- A 1×10 4-channel cutout with a single opaque pixel at column 0. -/
def eLeft : ImgA := ⟨1, 10, 4, fun p => if p = (0, 0) then 255 else 0⟩

/-- A 110×1 4-channel cutout whose foreground occupies rows 0 and 109. -/
def imgSpan : ImgA :=
  ⟨110, 1, 4, fun p => if p = (0, 0) ∨ p = (109, 0) then 255 else 0⟩

/-- A 2×2 3-channel image (no transparency channel). -/
def imgRGB : ImgA := ⟨2, 2, 3, fun _ => 255⟩

/-- A fully transparent 2×2 4-channel image. -/
def imgTransparent : ImgA := ⟨2, 2, 4, fun _ => 0⟩

/-- A 2×2 jewelry image with no nonzero pixel in the first channel. -/
def imgZeroTwo : Pix → ℕ := fun _ => 0

/-! ## Theorems -/

theorem mem_gridF {rows cols : ℕ} {p : Pix} :
    p ∈ gridF rows cols ↔ inBounds rows cols p := by
  simp only [gridF, Finset.mem_product, Finset.mem_Icc, inBounds]
  omega

theorem card_gridF (rows cols : ℕ) : (gridF rows cols).card = rows * cols := by
  simp only [gridF, Finset.card_product, Int.card_Icc]
  have h1 : ((rows : ℤ) - 1 + 1 - 0).toNat = rows := by omega
  have h2 : ((cols : ℤ) - 1 + 1 - 0).toNat = cols := by omega
  rw [h1, h2]

theorem length_gridList (rows cols : ℕ) : (gridList rows cols).length = rows * cols := by
  simp [gridList]

theorem mem_gridList {rows cols : ℕ} {p : Pix} :
    p ∈ gridList rows cols ↔ inBounds rows cols p := by
  obtain ⟨p1, p2⟩ := p
  simp only [gridList, List.mem_map, List.mem_range, inBounds]
  constructor
  · rintro ⟨k, hk, hEq⟩
    have h0 : 0 < cols := by
      rcases Nat.eq_zero_or_pos cols with h | h
      · subst h; simp at hk
      · exact h
    have h1 : k / cols < rows := Nat.div_lt_of_lt_mul (by rw [Nat.mul_comm]; exact hk)
    have h2 : k % cols < cols := Nat.mod_lt _ h0
    have e1 : ((k / cols : ℕ) : ℤ) = p1 := congrArg Prod.fst hEq
    have e2 : ((k % cols : ℕ) : ℤ) = p2 := congrArg Prod.snd hEq
    generalize hD : k / cols = D at h1 e1
    generalize hM : k % cols = M at h2 e2
    omega
  · rintro ⟨h1, h2, h3, h4⟩
    obtain ⟨a, rfl⟩ : ∃ a : ℕ, p1 = (a : ℤ) := ⟨p1.toNat, by omega⟩
    obtain ⟨b, rfl⟩ : ∃ b : ℕ, p2 = (b : ℤ) := ⟨p2.toNat, by omega⟩
    have ha : a < rows := by omega
    have hb : b < cols := by omega
    have h0 : 0 < cols := by omega
    refine ⟨a * cols + b, ?_, ?_⟩
    · calc a * cols + b < a * cols + cols := by omega
        _ = (a + 1) * cols := by ring
        _ ≤ rows * cols := Nat.mul_le_mul_right _ (by omega)
    · have hdiv : (a * cols + b) / cols = a := by
        rw [Nat.mul_comm a cols, Nat.mul_add_div h0, Nat.div_eq_of_lt hb, Nat.add_zero]
      have hmod : (a * cols + b) % cols = b := by
        rw [Nat.mul_comm a cols, Nat.mul_add_mod, Nat.mod_eq_of_lt hb]
      rw [hdiv, hmod]

/-- Decomposing list membership at a popped index. -/
theorem mem_get_or_eraseIdx :
    ∀ (l : List Pix) (i : Fin l.length) (q : Pix), q ∈ l →
      q = l.get i ∨ q ∈ l.eraseIdx i.1
  | a :: t, ⟨0, _⟩, q, hq => by
    rcases List.mem_cons.1 hq with h | h
    · exact Or.inl h
    · exact Or.inr (by simpa [List.eraseIdx] using h)
  | a :: t, ⟨j + 1, hj⟩, q, hq => by
    rcases List.mem_cons.1 hq with h | h
    · exact Or.inr (by simp [List.eraseIdx, h])
    · rcases mem_get_or_eraseIdx t ⟨j, by simpa using Nat.lt_of_succ_lt_succ hj⟩ q h with
        h' | h'
      · exact Or.inl (by simpa using h')
      · exact Or.inr (by simp [List.eraseIdx, h'])

theorem mem_of_mem_eraseIdx {l : List Pix} {i : ℕ} {q : Pix}
    (h : q ∈ l.eraseIdx i) : q ∈ l :=
  List.eraseIdx_subset _ _ h

/-- One unfolding of `searchLoopF` on a nonempty stack, abstracted over the
popped pixel: whatever index the policy chooses, the popped pixel is on the
stack, the remaining stack is a sublist, and together they cover the stack. -/
theorem searchLoopF_succ (next : Pix → List Pix) (policy : ℕ → ℕ → ℕ)
    (n t : ℕ) (visited : Finset Pix) (a : Pix) (l : List Pix) :
    ∃ (pixel : Pix) (rest : List Pix),
      pixel ∈ a :: l ∧ (∀ q ∈ rest, q ∈ a :: l) ∧
      (∀ q ∈ a :: l, q = pixel ∨ q ∈ rest) ∧
      rest.length + 1 = (a :: l).length ∧
      searchLoopF next policy (n + 1) t visited (a :: l) =
        (if pixel ∈ visited then
          searchLoopF next policy n (t + 1) visited rest
        else
          searchLoopF next policy n (t + 1) (insert pixel visited)
            (rest ++ next pixel)) := by
  refine ⟨(a :: l).get ⟨policy t (a :: l).length % (a :: l).length,
      Nat.mod_lt _ (Nat.succ_pos _)⟩,
    (a :: l).eraseIdx (policy t (a :: l).length % (a :: l).length),
    List.get_mem _ _ _, fun q hq => mem_of_mem_eraseIdx hq,
    fun q hq => mem_get_or_eraseIdx _ _ q hq, ?_, rfl⟩
  rw [List.length_eraseIdx]
  simp [Nat.mod_lt _ (Nat.succ_pos l.length)]

theorem subset_searchLoopF (next : Pix → List Pix) (policy : ℕ → ℕ → ℕ) :
    ∀ (fuel t : ℕ) (visited : Finset Pix) (stack : List Pix),
      visited ⊆ searchLoopF next policy fuel t visited stack := by
  intro fuel
  induction fuel with
  | zero => intro t visited stack; simp [searchLoopF]
  | succ n ih =>
    intro t visited stack
    rcases stack with _ | ⟨a, l⟩
    · simp [searchLoopF]
    · obtain ⟨pixel, rest, _, _, _, _, heq⟩ :=
        searchLoopF_succ next policy n t visited a l
      rw [heq]
      split
      · exact ih _ _ _
      · exact (Finset.subset_insert _ _).trans (ih _ _ _)

/-- Soundness of the worklist search: any set closed under `next` that
contains the visited set and the stack contains the result. -/
theorem searchLoopF_sound (next : Pix → List Pix) (policy : ℕ → ℕ → ℕ)
    (Q : Set Pix) (hQ : ∀ a ∈ Q, ∀ b ∈ next a, b ∈ Q) :
    ∀ (fuel t : ℕ) (visited : Finset Pix) (stack : List Pix),
      (∀ v ∈ visited, v ∈ Q) → (∀ s ∈ stack, s ∈ Q) →
      ∀ p ∈ searchLoopF next policy fuel t visited stack, p ∈ Q := by
  intro fuel
  induction fuel with
  | zero =>
    intro t visited stack hv _ p hp
    simp only [searchLoopF] at hp
    exact hv p hp
  | succ n ih =>
    intro t visited stack hv hs p hp
    rcases stack with _ | ⟨a, l⟩
    · simp only [searchLoopF] at hp
      exact hv p hp
    · obtain ⟨pixel, rest, hmem, hrest, _, _, heq⟩ :=
        searchLoopF_succ next policy n t visited a l
      rw [heq] at hp
      split at hp
      · exact ih _ _ _ hv (fun s h => hs s (hrest s h)) p hp
      · refine ih _ _ _ ?_ ?_ p hp
        · intro v hvm
          rcases Finset.mem_insert.1 hvm with rfl | hvm
          · exact hs v hmem
          · exact hv v hvm
        · intro s hsm
          rcases List.mem_append.1 hsm with hsm | hsm
          · exact hs s (hrest s hsm)
          · exact hQ pixel (hs pixel hmem) s hsm

/-- Completeness of the worklist search, given enough fuel: every stack
element ends up in the result, and the result is closed under `next`. -/
theorem searchLoopF_complete (next : Pix → List Pix) (policy : ℕ → ℕ → ℕ)
    (U : Finset Pix) (hU : ∀ a, ∀ b ∈ next a, b ∈ U)
    (hnl : ∀ a, (next a).length ≤ 8) :
    ∀ (fuel t : ℕ) (visited : Finset Pix) (stack : List Pix),
      searchMeasure U visited stack ≤ fuel →
      (∀ v ∈ visited, ∀ q ∈ next v, q ∈ visited ∨ q ∈ stack) →
      (∀ s ∈ stack, s ∈ searchLoopF next policy fuel t visited stack) ∧
      (∀ v ∈ searchLoopF next policy fuel t visited stack, ∀ q ∈ next v,
        q ∈ searchLoopF next policy fuel t visited stack) := by
  intro fuel
  induction fuel with
  | zero =>
    intro t visited stack hm hinv
    have hstack : stack = [] := by
      rcases stack with _ | ⟨a, l⟩
      · rfl
      · exfalso; unfold searchMeasure at hm; simp at hm
    subst hstack
    refine ⟨by simp, ?_⟩
    intro v hv q hq
    simp only [searchLoopF] at hv ⊢
    rcases hinv v hv q hq with h | h
    · exact h
    · simp at h
  | succ n ih =>
    intro t visited stack hm hinv
    rcases stack with _ | ⟨a, l⟩
    · refine ⟨by simp, ?_⟩
      intro v hv q hq
      simp only [searchLoopF] at hv ⊢
      rcases hinv v hv q hq with h | h
      · exact h
      · simp at h
    · obtain ⟨pixel, rest, hmem, hrest, hdec, hlen, heq⟩ :=
        searchLoopF_succ next policy n t visited a l
      have hrestF : rest.toFinset ⊆ (a :: l).toFinset := by
        intro q hq
        exact List.mem_toFinset.2 (hrest q (List.mem_toFinset.1 hq))
      have hlen' : rest.length + 1 = l.length + 1 := by simpa using hlen
      rw [heq]
      by_cases hvp : pixel ∈ visited
      · simp only [if_pos hvp]
        have hcard : ((U ∪ rest.toFinset) \ visited).card ≤
            ((U ∪ (a :: l).toFinset) \ visited).card :=
          Finset.card_le_card
            (Finset.sdiff_subset_sdiff (Finset.union_subset_union_right hrestF)
              (le_refl _))
        have hm' : searchMeasure U visited rest ≤ n := by
          unfold searchMeasure at hm ⊢
          simp only [List.length_cons] at hm
          omega
        have hinv' : ∀ v ∈ visited, ∀ q ∈ next v, q ∈ visited ∨ q ∈ rest := by
          intro v hv q hq
          rcases hinv v hv q hq with h | h
          · exact Or.inl h
          · rcases hdec q h with rfl | h'
            · exact Or.inl hvp
            · exact Or.inr h'
        obtain ⟨ih1, ih2⟩ := ih (t + 1) visited rest hm' hinv'
        refine ⟨?_, ih2⟩
        intro s hs
        rcases hdec s hs with rfl | hs'
        · exact subset_searchLoopF next policy n (t + 1) visited rest hvp
        · exact ih1 s hs'
      · simp only [if_neg hvp]
        have hpixA : pixel ∈ (U ∪ (a :: l).toFinset) \ visited :=
          Finset.mem_sdiff.2
            ⟨Finset.mem_union_right _ (List.mem_toFinset.2 hmem), hvp⟩
        have hsub : (U ∪ (rest ++ next pixel).toFinset) \ insert pixel visited ⊆
            ((U ∪ (a :: l).toFinset) \ visited).erase pixel := by
          intro q hq
          obtain ⟨hq1, hq2⟩ := Finset.mem_sdiff.1 hq
          have hqne : q ≠ pixel := fun h => hq2 (h ▸ Finset.mem_insert_self _ _)
          have hqnv : q ∉ visited := fun h => hq2 (Finset.mem_insert_of_mem h)
          refine Finset.mem_erase.2 ⟨hqne, Finset.mem_sdiff.2 ⟨?_, hqnv⟩⟩
          rcases Finset.mem_union.1 hq1 with h | h
          · exact Finset.mem_union_left _ h
          · rw [List.toFinset_append] at h
            rcases Finset.mem_union.1 h with h | h
            · exact Finset.mem_union_right _ (hrestF h)
            · exact Finset.mem_union_left _ (hU pixel q (List.mem_toFinset.1 h))
        have hcard : ((U ∪ (rest ++ next pixel).toFinset) \ insert pixel visited).card ≤
            ((U ∪ (a :: l).toFinset) \ visited).card - 1 := by
          have := Finset.card_le_card hsub
          rwa [Finset.card_erase_of_mem hpixA] at this
        have hcpos : 1 ≤ ((U ∪ (a :: l).toFinset) \ visited).card :=
          Finset.card_pos.2 ⟨pixel, hpixA⟩
        have hm' : searchMeasure U (insert pixel visited) (rest ++ next pixel) ≤ n := by
          unfold searchMeasure at hm ⊢
          rw [List.length_append]
          have := hnl pixel
          simp only [List.length_cons] at hm
          omega
        have hinv' : ∀ v ∈ insert pixel visited, ∀ q ∈ next v,
            q ∈ insert pixel visited ∨ q ∈ rest ++ next pixel := by
          intro v hv q hq
          rcases Finset.mem_insert.1 hv with rfl | hv
          · exact Or.inr (List.mem_append.2 (Or.inr hq))
          · rcases hinv v hv q hq with h | h
            · exact Or.inl (Finset.mem_insert_of_mem h)
            · rcases hdec q h with rfl | h'
              · exact Or.inl (Finset.mem_insert_self _ _)
              · exact Or.inr (List.mem_append.2 (Or.inl h'))
        obtain ⟨ih1, ih2⟩ := ih (t + 1) (insert pixel visited) (rest ++ next pixel)
          hm' hinv'
        refine ⟨?_, ih2⟩
        intro s hs
        rcases hdec s hs with rfl | hs'
        · exact subset_searchLoopF next policy n (t + 1) _ _
            (Finset.mem_insert_self _ _)
        · exact ih1 s (List.mem_append.2 (Or.inl hs'))

/-- The worklist search computes exactly the pixels reachable from the
sources along `next`-edges, for any pop policy with enough fuel. -/
theorem searchRun_spec (next : Pix → List Pix) (policy : ℕ → ℕ → ℕ)
    (U : Finset Pix) (hU : ∀ a, ∀ b ∈ next a, b ∈ U)
    (hnl : ∀ a, (next a).length ≤ 8) (fuel : ℕ) (sources : List Pix)
    (hfuel : 9 * (U ∪ sources.toFinset).card + sources.length ≤ fuel) :
    ∀ p, p ∈ searchRun next policy fuel sources ↔
      ∃ s ∈ sources, Relation.ReflTransGen (fun a b => b ∈ next a) s p := by
  have hm : searchMeasure U ∅ sources ≤ fuel := by
    unfold searchMeasure
    rwa [Finset.sdiff_empty]
  obtain ⟨h1, h2⟩ := searchLoopF_complete next policy U hU hnl fuel 0 ∅ sources hm
    (by simp)
  intro p
  constructor
  · intro hp
    refine searchLoopF_sound next policy
      {x | ∃ s ∈ sources, Relation.ReflTransGen (fun a b => b ∈ next a) s x}
      ?_ fuel 0 ∅ sources (by simp) ?_ p hp
    · rintro x ⟨s, hs, hchain⟩ b hb
      exact ⟨s, hs, hchain.tail hb⟩
    · intro s hs
      exact ⟨s, hs, Relation.ReflTransGen.refl⟩
  · rintro ⟨s, hs, hchain⟩
    induction hchain with
    | refl => exact h1 s hs
    | tail _ hstep ihc => exact h2 _ ihc _ hstep

theorem mem_neighborMap (p q : Pix) :
    q ∈ neighborOffsets.map (fun d => (p.1 + d.1, p.2 + d.2)) ↔ adj8 p q := by
  obtain ⟨p1, p2⟩ := p
  obtain ⟨q1, q2⟩ := q
  simp only [neighborOffsets, List.map_cons, List.map_nil, List.mem_cons,
    List.not_mem_nil, or_false, adj8, ne_eq, Prod.mk.injEq, Prod.ext_iff, not_and]
  omega

theorem mem_floodNext {img : Pix → ℕ} {rows cols : ℕ} {p q : Pix} :
    q ∈ floodNext img rows cols p ↔ adj8 p q ∧ floodPred img rows cols q := by
  rw [floodNext, List.mem_filter, mem_neighborMap, decide_eq_true_eq]

theorem floodNext_subset_grid {img : Pix → ℕ} {rows cols : ℕ} {p q : Pix}
    (h : q ∈ floodNext img rows cols p) : q ∈ gridF rows cols :=
  mem_gridF.2 (mem_floodNext.1 h).2.1

theorem floodNext_length_le (img : Pix → ℕ) (rows cols : ℕ) (p : Pix) :
    (floodNext img rows cols p).length ≤ 8 := by
  refine le_trans (List.length_filter_le _ _) ?_
  simp [neighborOffsets]

/-- Any pop policy computes exactly the set of pixels reachable from the
seed through 8-adjacent steps into pixels satisfying the growth test. -/
theorem floodFillWith_mem (policy : ℕ → ℕ → ℕ) (img : Pix → ℕ)
    (rows cols : ℕ) (start : Pix) (p : Pix) :
    p ∈ floodFillWith policy img rows cols start ↔
      connVia (floodPred img rows cols) start p := by
  have hfuel : 9 * (gridF rows cols ∪ ([start] : List Pix).toFinset).card +
      ([start] : List Pix).length ≤ floodFuel rows cols := by
    have h1 : (gridF rows cols ∪ ([start] : List Pix).toFinset).card ≤
        rows * cols + 1 := by
      refine le_trans (Finset.card_union_le _ _) ?_
      simp [card_gridF]
    unfold floodFuel
    simp only [List.length_cons, List.length_nil]
    omega
  have h := searchRun_spec (floodNext img rows cols) policy (gridF rows cols)
    (fun _ _ hb => floodNext_subset_grid hb)
    (fun _ => floodNext_length_le img rows cols _) (floodFuel rows cols)
    [start] hfuel
  rw [floodFillWith, h p]
  constructor
  · rintro ⟨s, hs, hchain⟩
    rw [List.mem_singleton] at hs
    subst hs
    exact Relation.ReflTransGen.mono (fun a b hb => mem_floodNext.1 hb) hchain
  · intro hchain
    exact ⟨start, List.mem_singleton.2 rfl,
      Relation.ReflTransGen.mono (fun a b hb => mem_floodNext.2 hb) hchain⟩

theorem connVia_pred {P : Pix → Prop} {a b : Pix} (ha : P a)
    (h : connVia P a b) : P b := by
  unfold connVia at h
  induction h with
  | refl => exact ha
  | tail _ hstep => exact hstep.2

/-- C1, counterexample to the claim as stated: on a 1×1 image whose pixel
has first channel value 5 (a valid seed pixel, since seed selection only
requires value > 0), `flood_fill` returns a set containing the seed even
though the seed fails the growth-membership predicate (value > 10), so the
returned set is not a region whose members satisfy that predicate. -/
theorem flood_fill_dim_seed_cex :
    (0, 0) ∈ flood_fill imgSeedDim 1 1 (0, 0) ∧
      ¬ floodPred imgSeedDim 1 1 (0, 0) := by
  constructor
  · decide
  · decide

/-- C1 (amended: the seed itself must satisfy the growth-membership
predicate): for every image, bounds and such a seed, `flood_fill` — under
any worklist pop order — returns exactly the maximal 8-connected region of
predicate-satisfying pixels containing the seed: the result equals the
reachable component, all its members satisfy the predicate, every
8-connected set of predicate pixels containing the seed is contained in
it, and on an image whose predicate pixels form a single 8-connected blob
the result is exactly that blob. -/
theorem flood_fill_maximal_component (img : Pix → ℕ) (rows cols : ℕ)
    (start : Pix) (hstart : floodPred img rows cols start) :
    (∀ p, p ∈ flood_fill img rows cols start ↔
      p ∈ floodComponent img rows cols start) ∧
    (∀ policy p, p ∈ floodFillWith policy img rows cols start ↔
      p ∈ floodComponent img rows cols start) ∧
    (∀ p ∈ floodComponent img rows cols start, floodPred img rows cols p) ∧
    (∀ D : Set Pix, start ∈ D → (∀ p ∈ D, floodPred img rows cols p) →
      (∀ p ∈ D, connVia (fun q => q ∈ D) start p) →
      D ⊆ floodComponent img rows cols start) ∧
    (∀ B : Set Pix, (∀ p, floodPred img rows cols p ↔ p ∈ B) → start ∈ B →
      (∀ p ∈ B, connVia (fun q => q ∈ B) start p) →
      ∀ p, p ∈ flood_fill img rows cols start ↔ p ∈ B) := by
  refine ⟨fun p => ?_, fun policy p => ?_, ?_, ?_, ?_⟩
  · exact floodFillWith_mem _ img rows cols start p
  · exact floodFillWith_mem policy img rows cols start p
  · intro p hp
    exact connVia_pred hstart hp
  · intro D hDs hDpred hDconn p hp
    exact Relation.ReflTransGen.mono
      (fun u v huv => ⟨huv.1, hDpred v huv.2⟩) (hDconn p hp)
  · intro B hB hBs hBconn p
    constructor
    · intro hp
      exact (hB p).1 (connVia_pred hstart
        ((floodFillWith_mem _ img rows cols start p).1 hp))
    · intro hpB
      exact (floodFillWith_mem _ img rows cols start p).2
        (Relation.ReflTransGen.mono
          (fun u v huv => ⟨huv.1, (hB v).2 huv.2⟩) (hBconn p hpB))

/-- C1, witness: the amended theorem applied to a concrete 2×2 image with
a bright seed. -/
theorem flood_fill_maximal_component_witness :
    floodPred imgBlobTwo 2 2 (0, 0) ∧
    ((∀ p, p ∈ flood_fill imgBlobTwo 2 2 (0, 0) ↔
      p ∈ floodComponent imgBlobTwo 2 2 (0, 0)) ∧
    (∀ policy p, p ∈ floodFillWith policy imgBlobTwo 2 2 (0, 0) ↔
      p ∈ floodComponent imgBlobTwo 2 2 (0, 0)) ∧
    (∀ p ∈ floodComponent imgBlobTwo 2 2 (0, 0),
      floodPred imgBlobTwo 2 2 p) ∧
    (∀ D : Set Pix, (0, 0) ∈ D → (∀ p ∈ D, floodPred imgBlobTwo 2 2 p) →
      (∀ p ∈ D, connVia (fun q => q ∈ D) (0, 0) p) →
      D ⊆ floodComponent imgBlobTwo 2 2 (0, 0)) ∧
    (∀ B : Set Pix, (∀ p, floodPred imgBlobTwo 2 2 p ↔ p ∈ B) →
      (0, 0) ∈ B → (∀ p ∈ B, connVia (fun q => q ∈ B) (0, 0) p) →
      ∀ p, p ∈ flood_fill imgBlobTwo 2 2 (0, 0) ↔ p ∈ B)) :=
  ⟨by decide, flood_fill_maximal_component imgBlobTwo 2 2 (0, 0) (by decide)⟩

theorem mem_rectC {x1 x2 y1 y2 px py : ℤ} :
    (px, py) ∈ rectC x1 x2 y1 y2 ↔
      x1 ≤ px ∧ px ≤ x2 ∧ y1 ≤ py ∧ py ≤ y2 := by
  simp only [rectC, Finset.mem_product, Finset.mem_Icc]
  omega

theorem mem_get_contour {cluster : Finset Pix} {rows cols : ℕ} {p : Pix} :
    p ∈ get_contour cluster rows cols ↔
      p ∈ cluster ∧ ∃ q, adj8 p q ∧ inBounds rows cols q ∧ q ∉ cluster := by
  rw [get_contour, Finset.mem_filter]
  refine and_congr_right fun _ => ?_
  rw [List.any_eq_true]
  constructor
  · rintro ⟨q, hqmem, hf⟩
    rw [Bool.and_eq_true, decide_eq_true_eq, Bool.not_eq_true',
      decide_eq_false_iff_not] at hf
    exact ⟨q, (mem_neighborMap p q).1 hqmem, hf.1, hf.2⟩
  · rintro ⟨q, hadj, hb, hnc⟩
    refine ⟨q, (mem_neighborMap p q).2 hadj, ?_⟩
    rw [Bool.and_eq_true, decide_eq_true_eq, Bool.not_eq_true',
      decide_eq_false_iff_not]
    exact ⟨hb, hnc⟩

theorem get_contour_subset (cluster : Finset Pix) (rows cols : ℕ) :
    get_contour cluster rows cols ⊆ cluster :=
  Finset.filter_subset _ _

/-- For a solid rectangle at least one pixel away from every image border,
the contour is exactly the rectangle's perimeter. -/
theorem get_contour_rect {x1 x2 y1 y2 : ℤ} {rows cols : ℕ}
    (h1 : 1 ≤ x1) (h2 : x1 ≤ x2) (h3 : x2 ≤ (rows : ℤ) - 2)
    (h4 : 1 ≤ y1) (h5 : y1 ≤ y2) (h6 : y2 ≤ (cols : ℤ) - 2) :
    get_contour (rectC x1 x2 y1 y2) rows cols = rectPerimeter x1 x2 y1 y2 := by
  ext p
  obtain ⟨px, py⟩ := p
  rw [mem_get_contour, rectPerimeter, Finset.mem_filter]
  constructor
  · rintro ⟨hin, q, hadj, hb, hnot⟩
    refine ⟨hin, ?_⟩
    rw [mem_rectC] at hin
    by_contra hnp
    push_neg at hnp
    apply hnot
    obtain ⟨qx, qy⟩ := q
    rw [mem_rectC]
    simp only [adj8, ne_eq, Prod.mk.injEq, not_and] at hadj
    simp only at hnp
    omega
  · rintro ⟨hin, hper⟩
    have hin' := mem_rectC.1 hin
    refine ⟨hin, ?_⟩
    simp only at hper
    rcases hper with h | h | h | h
    · refine ⟨(x1 - 1, py), ?_, ?_, ?_⟩
      · simp only [adj8, ne_eq, Prod.mk.injEq, not_and]
        omega
      · simp only [inBounds]
        omega
      · rw [mem_rectC]
        omega
    · refine ⟨(x2 + 1, py), ?_, ?_, ?_⟩
      · simp only [adj8, ne_eq, Prod.mk.injEq, not_and]
        omega
      · simp only [inBounds]
        omega
      · rw [mem_rectC]
        omega
    · refine ⟨(px, y1 - 1), ?_, ?_, ?_⟩
      · simp only [adj8, ne_eq, Prod.mk.injEq, not_and]
        omega
      · simp only [inBounds]
        omega
      · rw [mem_rectC]
        omega
    · refine ⟨(px, y2 + 1), ?_, ?_, ?_⟩
      · simp only [adj8, ne_eq, Prod.mk.injEq, not_and]
        omega
      · simp only [inBounds]
        omega
      · rw [mem_rectC]
        omega

theorem mem_crossMap (p q : Pix) :
    q ∈ crossOffsets.map (fun d => (p.1 + d.1, p.2 + d.2)) ↔ adj4 p q := by
  obtain ⟨p1, p2⟩ := p
  obtain ⟨q1, q2⟩ := q
  simp only [crossOffsets, List.map_cons, List.map_nil, List.mem_cons,
    List.not_mem_nil, or_false, adj4, Prod.mk.injEq]
  omega

theorem mem_bgNext {mask : Finset Pix} {rows cols : ℕ} {p q : Pix} :
    q ∈ bgNext mask rows cols p ↔ adj4 p q ∧ bgOk mask rows cols q := by
  rw [bgNext, List.mem_filter, mem_crossMap, decide_eq_true_eq]

theorem bgNext_subset_grid {mask : Finset Pix} {rows cols : ℕ} {p q : Pix}
    (h : q ∈ bgNext mask rows cols p) : q ∈ gridF rows cols :=
  mem_gridF.2 (mem_bgNext.1 h).2.1

theorem bgNext_length_le (mask : Finset Pix) (rows cols : ℕ) (p : Pix) :
    (bgNext mask rows cols p).length ≤ 8 := by
  refine le_trans (List.length_filter_le _ _) ?_
  simp [crossOffsets]

theorem mem_borderSources {mask : Finset Pix} {rows cols : ℕ} {p : Pix} :
    p ∈ borderSources mask rows cols ↔
      inBounds rows cols p ∧ onBorder rows cols p ∧ p ∉ mask := by
  rw [borderSources, List.mem_filter, mem_gridList, Bool.and_eq_true,
    decide_eq_true_eq, Bool.not_eq_true', decide_eq_false_iff_not]

theorem mem_fill_contour {mask : Finset Pix} {rows cols : ℕ} {p : Pix} :
    p ∈ fill_contour mask rows cols ↔
      inBounds rows cols p ∧ ¬ bgReachable mask rows cols p := by
  have hsub : (borderSources mask rows cols).toFinset ⊆ gridF rows cols := by
    intro q hq
    exact mem_gridF.2 (mem_borderSources.1 (List.mem_toFinset.1 hq)).1
  have hfuel : 9 * (gridF rows cols ∪ (borderSources mask rows cols).toFinset).card +
      (borderSources mask rows cols).length ≤ fillFuel rows cols := by
    rw [Finset.union_eq_left.2 hsub, card_gridF]
    have hlen : (borderSources mask rows cols).length ≤ rows * cols := by
      refine le_trans (List.length_filter_le _ _) ?_
      rw [length_gridList]
    unfold fillFuel
    omega
  have h := searchRun_spec (bgNext mask rows cols) (fun _ n => n - 1)
    (gridF rows cols) (fun _ _ hb => bgNext_subset_grid hb)
    (fun _ => bgNext_length_le mask rows cols _) (fillFuel rows cols)
    (borderSources mask rows cols) hfuel
  rw [fill_contour, Finset.mem_sdiff, mem_gridF]
  refine and_congr_right fun _ => not_congr ?_
  rw [h p]
  constructor
  · rintro ⟨s, hs, hchain⟩
    exact ⟨s, mem_borderSources.1 hs,
      Relation.ReflTransGen.mono (fun a b hb => mem_bgNext.1 hb) hchain⟩
  · rintro ⟨s, hs, hchain⟩
    exact ⟨s, mem_borderSources.2 hs,
      Relation.ReflTransGen.mono (fun a b hb => mem_bgNext.2 hb) hchain⟩

/-- Vertical background chain with increasing row index. -/
theorem bg_chain_up (mask : Finset Pix) (rows cols : ℕ) (y a b : ℤ)
    (hab : a ≤ b) (hok : ∀ t : ℤ, a < t → t ≤ b → bgOk mask rows cols (t, y)) :
    Relation.ReflTransGen (fun u v => adj4 u v ∧ bgOk mask rows cols v)
      (a, y) (b, y) := by
  obtain ⟨n, hn⟩ : ∃ n : ℕ, b - a = (n : ℤ) := ⟨(b - a).toNat, by omega⟩
  induction n generalizing b with
  | zero =>
    have hb : b = a := by omega
    subst hb
    exact Relation.ReflTransGen.refl
  | succ k ih =>
    refine Relation.ReflTransGen.tail
      (ih (b - 1) (by omega) (fun t ht1 ht2 => hok t ht1 (by omega)) (by omega))
      ⟨?_, hok b (by omega) le_rfl⟩
    exact Or.inr ⟨rfl, Or.inl (by ring)⟩

/-- Vertical background chain with decreasing row index. -/
theorem bg_chain_down (mask : Finset Pix) (rows cols : ℕ) (y a b : ℤ)
    (hab : b ≤ a) (hok : ∀ t : ℤ, b ≤ t → t < a → bgOk mask rows cols (t, y)) :
    Relation.ReflTransGen (fun u v => adj4 u v ∧ bgOk mask rows cols v)
      (a, y) (b, y) := by
  obtain ⟨n, hn⟩ : ∃ n : ℕ, a - b = (n : ℤ) := ⟨(a - b).toNat, by omega⟩
  induction n generalizing b with
  | zero =>
    have hb : b = a := by omega
    subst hb
    exact Relation.ReflTransGen.refl
  | succ k ih =>
    refine Relation.ReflTransGen.tail
      (ih (b + 1) (by omega) (fun t ht1 ht2 => hok t (by omega) ht2) (by omega))
      ⟨?_, hok b (by omega) (by omega)⟩
    exact Or.inr ⟨rfl, Or.inr (by ring)⟩

/-- Horizontal background chain with increasing column index. -/
theorem bg_chain_right (mask : Finset Pix) (rows cols : ℕ) (x a b : ℤ)
    (hab : a ≤ b) (hok : ∀ t : ℤ, a < t → t ≤ b → bgOk mask rows cols (x, t)) :
    Relation.ReflTransGen (fun u v => adj4 u v ∧ bgOk mask rows cols v)
      (x, a) (x, b) := by
  obtain ⟨n, hn⟩ : ∃ n : ℕ, b - a = (n : ℤ) := ⟨(b - a).toNat, by omega⟩
  induction n generalizing b with
  | zero =>
    have hb : b = a := by omega
    subst hb
    exact Relation.ReflTransGen.refl
  | succ k ih =>
    refine Relation.ReflTransGen.tail
      (ih (b - 1) (by omega) (fun t ht1 ht2 => hok t ht1 (by omega)) (by omega))
      ⟨?_, hok b (by omega) le_rfl⟩
    exact Or.inl ⟨rfl, Or.inl (by ring)⟩

/-- Horizontal background chain with decreasing column index. -/
theorem bg_chain_left (mask : Finset Pix) (rows cols : ℕ) (x a b : ℤ)
    (hab : b ≤ a) (hok : ∀ t : ℤ, b ≤ t → t < a → bgOk mask rows cols (x, t)) :
    Relation.ReflTransGen (fun u v => adj4 u v ∧ bgOk mask rows cols v)
      (x, a) (x, b) := by
  obtain ⟨n, hn⟩ : ∃ n : ℕ, a - b = (n : ℤ) := ⟨(a - b).toNat, by omega⟩
  induction n generalizing b with
  | zero =>
    have hb : b = a := by omega
    subst hb
    exact Relation.ReflTransGen.refl
  | succ k ih =>
    refine Relation.ReflTransGen.tail
      (ih (b + 1) (by omega) (fun t ht1 ht2 => hok t (by omega) ht2) (by omega))
      ⟨?_, hok b (by omega) (by omega)⟩
    exact Or.inl ⟨rfl, Or.inr (by ring)⟩

/-- A perimeter mask with a one-pixel margin cannot be crossed by the
background flood: reached pixels stay outside the solid rectangle. -/
theorem bg_reach_avoids_rect {x1 x2 y1 y2 : ℤ} {rows cols : ℕ}
    (h1 : 1 ≤ x1) (_h2 : x1 ≤ x2) (h3 : x2 ≤ (rows : ℤ) - 2)
    (h4 : 1 ≤ y1) (_h5 : y1 ≤ y2) (h6 : y2 ≤ (cols : ℤ) - 2) :
    ∀ p, bgReachable (rectPerimeter x1 x2 y1 y2) rows cols p →
      p ∉ rectC x1 x2 y1 y2 := by
  rintro p ⟨s, ⟨hsb, hsborder, hsmask⟩, hchain⟩
  induction hchain with
  | refl =>
    obtain ⟨sx, sy⟩ := s
    intro hmem
    rw [mem_rectC] at hmem
    simp only [inBounds] at hsb
    simp only [onBorder] at hsborder
    omega
  | tail _ hstep ih =>
    rename_i u v _
    obtain ⟨hadj, hvb, hvmask⟩ := hstep
    intro hv
    have hvper : v ∉ rectPerimeter x1 x2 y1 y2 := hvmask
    rw [rectPerimeter, Finset.mem_filter] at hvper
    obtain ⟨ux, uy⟩ := u
    obtain ⟨vx, vy⟩ := v
    apply ih
    rw [mem_rectC] at hv ⊢
    have hflags : ¬(vx = x1 ∨ vx = x2 ∨ vy = y1 ∨ vy = y2) := by
      intro hf
      exact hvper ⟨mem_rectC.2 hv, hf⟩
    simp only [adj4, Prod.mk.injEq] at hadj
    omega

/-- Every in-bounds pixel outside the rectangle is reachable by the
background flood around a margin-1 perimeter mask. -/
theorem bg_reach_outside {x1 x2 y1 y2 : ℤ} {rows cols : ℕ}
    (h1 : 1 ≤ x1) (h2 : x1 ≤ x2) (h3 : x2 ≤ (rows : ℤ) - 2)
    (h4 : 1 ≤ y1) (h5 : y1 ≤ y2) (h6 : y2 ≤ (cols : ℤ) - 2) :
    ∀ p, inBounds rows cols p → p ∉ rectC x1 x2 y1 y2 →
      bgReachable (rectPerimeter x1 x2 y1 y2) rows cols p := by
  rintro ⟨px, py⟩ hb hnot
  have hper_sub : ∀ q : Pix, q ∈ rectPerimeter x1 x2 y1 y2 →
      q ∈ rectC x1 x2 y1 y2 :=
    fun q hq => (Finset.mem_filter.1 hq).1
  simp only [inBounds] at hb
  have hcase : px < x1 ∨ x2 < px ∨ py < y1 ∨ y2 < py := by
    rw [mem_rectC] at hnot
    omega
  rcases hcase with hc | hc | hc | hc
  · refine ⟨(0, py), ⟨?_, ?_, ?_⟩, ?_⟩
    · simp only [inBounds]
      omega
    · exact Or.inl rfl
    · intro hmem
      have := mem_rectC.1 (hper_sub _ hmem)
      omega
    · refine bg_chain_up _ rows cols py 0 px (by omega) ?_
      intro t ht1 ht2
      refine ⟨by simp only [inBounds]; omega, ?_⟩
      intro hmem
      have := mem_rectC.1 (hper_sub _ hmem)
      omega
  · refine ⟨((rows : ℤ) - 1, py), ⟨?_, ?_, ?_⟩, ?_⟩
    · simp only [inBounds]
      omega
    · exact Or.inr (Or.inl rfl)
    · intro hmem
      have := mem_rectC.1 (hper_sub _ hmem)
      omega
    · refine bg_chain_down _ rows cols py ((rows : ℤ) - 1) px (by omega) ?_
      intro t ht1 ht2
      refine ⟨by simp only [inBounds]; omega, ?_⟩
      intro hmem
      have := mem_rectC.1 (hper_sub _ hmem)
      omega
  · refine ⟨(px, 0), ⟨?_, ?_, ?_⟩, ?_⟩
    · simp only [inBounds]
      omega
    · exact Or.inr (Or.inr (Or.inl rfl))
    · intro hmem
      have := mem_rectC.1 (hper_sub _ hmem)
      omega
    · refine bg_chain_right _ rows cols px 0 py (by omega) ?_
      intro t ht1 ht2
      refine ⟨by simp only [inBounds]; omega, ?_⟩
      intro hmem
      have := mem_rectC.1 (hper_sub _ hmem)
      omega
  · refine ⟨(px, (cols : ℤ) - 1), ⟨?_, ?_, ?_⟩, ?_⟩
    · simp only [inBounds]
      omega
    · exact Or.inr (Or.inr (Or.inr rfl))
    · intro hmem
      have := mem_rectC.1 (hper_sub _ hmem)
      omega
    · refine bg_chain_left _ rows cols px ((cols : ℤ) - 1) py (by omega) ?_
      intro t ht1 ht2
      refine ⟨by simp only [inBounds]; omega, ?_⟩
      intro hmem
      have := mem_rectC.1 (hper_sub _ hmem)
      omega

/-- Filling the perimeter of a margin-1 rectangle yields the solid
rectangle. -/
theorem fill_contour_perimeter {x1 x2 y1 y2 : ℤ} {rows cols : ℕ}
    (h1 : 1 ≤ x1) (h2 : x1 ≤ x2) (h3 : x2 ≤ (rows : ℤ) - 2)
    (h4 : 1 ≤ y1) (h5 : y1 ≤ y2) (h6 : y2 ≤ (cols : ℤ) - 2) :
    fill_contour (rectPerimeter x1 x2 y1 y2) rows cols =
      rectC x1 x2 y1 y2 := by
  ext p
  rw [mem_fill_contour]
  constructor
  · rintro ⟨hb, hnr⟩
    by_contra hnot
    exact hnr (bg_reach_outside h1 h2 h3 h4 h5 h6 p hb hnot)
  · intro hp
    have hb : inBounds rows cols p := by
      obtain ⟨px, py⟩ := p
      rw [mem_rectC] at hp
      simp only [inBounds]
      omega
    exact ⟨hb, fun hr => bg_reach_avoids_rect h1 h2 h3 h4 h5 h6 p hr hp⟩

/-- C5, counterexample to the claim as stated: the full-image 3×3
rectangle is a solid filled rectangle cluster, yet its extracted contour
is empty (no pixel has an in-bounds neighbour outside the cluster) while
its perimeter is not. -/
theorem get_contour_full_rect_cex :
    get_contour (rectC 0 2 0 2) 3 3 = ∅ ∧ rectPerimeter 0 2 0 2 ≠ ∅ := by
  constructor
  · decide
  · decide

/-- C5 (amended: the rectangle-perimeter equality needs the rectangle to
keep a one-pixel margin from the image border): a cluster member is a
contour pixel iff some 8-neighbour is in-bounds and outside the cluster,
the contour is always a subset of the cluster, and for a solid rectangle
with a one-pixel margin the contour is exactly the perimeter. -/
theorem get_contour_spec (x1 x2 y1 y2 : ℤ) (rows cols : ℕ)
    (h : 1 ≤ x1 ∧ x1 ≤ x2 ∧ x2 ≤ (rows : ℤ) - 2 ∧
      1 ≤ y1 ∧ y1 ≤ y2 ∧ y2 ≤ (cols : ℤ) - 2) :
    (∀ (cluster : Finset Pix) (p : Pix),
      p ∈ get_contour cluster rows cols ↔
        p ∈ cluster ∧ ∃ q, adj8 p q ∧ inBounds rows cols q ∧ q ∉ cluster) ∧
    (∀ cluster : Finset Pix, get_contour cluster rows cols ⊆ cluster) ∧
    get_contour (rectC x1 x2 y1 y2) rows cols = rectPerimeter x1 x2 y1 y2 :=
  ⟨fun _ _ => mem_get_contour, fun _ => get_contour_subset _ _ _,
    get_contour_rect h.1 h.2.1 h.2.2.1 h.2.2.2.1 h.2.2.2.2.1 h.2.2.2.2.2⟩

/-- C5, witness: the amended statement at a concrete interior rectangle
in a 4×4 image. -/
theorem get_contour_spec_witness :
    ((1 : ℤ) ≤ 1 ∧ (1 : ℤ) ≤ 2 ∧ (2 : ℤ) ≤ ((4 : ℕ) : ℤ) - 2 ∧
      (1 : ℤ) ≤ 1 ∧ (1 : ℤ) ≤ 2 ∧ (2 : ℤ) ≤ ((4 : ℕ) : ℤ) - 2) ∧
    ((∀ (cluster : Finset Pix) (p : Pix),
      p ∈ get_contour cluster 4 4 ↔
        p ∈ cluster ∧ ∃ q, adj8 p q ∧ inBounds 4 4 q ∧ q ∉ cluster) ∧
    (∀ cluster : Finset Pix, get_contour cluster 4 4 ⊆ cluster) ∧
    get_contour (rectC 1 2 1 2) 4 4 = rectPerimeter 1 2 1 2) :=
  ⟨by decide, get_contour_spec 1 2 1 2 4 4 (by decide)⟩

/-- C6, counterexample to the claim as stated: for the full-image 3×3
rectangle (a solid filled rectangle within the image bounds) the contour
is empty, so filling it back gives the empty mask, not the original
rectangle. -/
theorem fill_roundtrip_full_rect_cex :
    fill_contour (get_contour (rectC 0 2 0 2) 3 3) 3 3 = ∅ ∧
      rectC 0 2 0 2 ≠ ∅ := by
  constructor
  · decide
  · decide

/-- C6 (amended: the rectangle must keep a one-pixel margin from the image
border): extracting the contour of a solid rectangle and filling it back
reproduces the rectangle exactly. -/
theorem fill_contour_roundtrip (x1 x2 y1 y2 : ℤ) (rows cols : ℕ)
    (h : 1 ≤ x1 ∧ x1 ≤ x2 ∧ x2 ≤ (rows : ℤ) - 2 ∧
      1 ≤ y1 ∧ y1 ≤ y2 ∧ y2 ≤ (cols : ℤ) - 2) :
    fill_contour (get_contour (rectC x1 x2 y1 y2) rows cols) rows cols =
      rectC x1 x2 y1 y2 := by
  obtain ⟨h1, h2, h3, h4, h5, h6⟩ := h
  rw [get_contour_rect h1 h2 h3 h4 h5 h6]
  exact fill_contour_perimeter h1 h2 h3 h4 h5 h6

/-- C6, witness: the round-trip at a concrete interior rectangle in a 4×4
image. -/
theorem fill_contour_roundtrip_witness :
    ((1 : ℤ) ≤ 1 ∧ (1 : ℤ) ≤ 2 ∧ (2 : ℤ) ≤ ((4 : ℕ) : ℤ) - 2 ∧
      (1 : ℤ) ≤ 1 ∧ (1 : ℤ) ≤ 2 ∧ (2 : ℤ) ≤ ((4 : ℕ) : ℤ) - 2) ∧
    fill_contour (get_contour (rectC 1 2 1 2) 4 4) 4 4 = rectC 1 2 1 2 :=
  ⟨by decide, fill_contour_roundtrip 1 2 1 2 4 4 (by decide)⟩

/-- C2, counterexample to the claim as stated: the first cutout's
nonzero-alpha centroid column (4) is strictly larger than the second's
(2), so the claim routes the second cutout left; the code compares the
`alpha > 1` thresholded centroids (0 versus 2) and routes the first
cutout left. -/
theorem left_and_right_nonzero_cex :
    jewel_center_nonzero eAlphaOne = some (4, 0) ∧
    jewel_center_nonzero eMid = some (2, 0) ∧
    jewel_center eAlphaOne = some (0, 0) ∧
    jewel_center eMid = some (2, 0) ∧
    left_and_right eAlphaOne eMid = some true := by
  refine ⟨by decide, by decide, by decide, by decide, by decide⟩

/-- C2 (amended: the centroid is that of the `alpha > 1` thresholded
binary mask, `cv2.threshold(alpha, 1, 255, THRESH_BINARY)`, not of the
nonzero-alpha mask): when both centroids are defined, the cutout with the
strictly smaller centroid column is routed left and the other right, and
swapping the two cutouts' column positions swaps the labels. -/
theorem left_and_right_spec (e1 e2 : ImgA) (c1 c2 : ℤ × ℤ)
    (h1 : jewel_center e1 = some c1) (h2 : jewel_center e2 = some c2) :
    left_and_right e1 e2 = some (decide (c1.1 < c2.1)) ∧
    (c1.1 < c2.1 →
      left_and_right e1 e2 = some true ∧ left_and_right e2 e1 = some false) := by
  constructor
  · simp [left_and_right, h1, h2]
  · intro hlt
    have hnlt : ¬(c2.1 < c1.1) := by omega
    constructor
    · simp [left_and_right, h1, h2, hlt]
    · simp [left_and_right, h1, h2, hnlt]

/-- C2, witness: the amended statement at two concrete one-row cutouts
with centroid columns 0 and 2. -/
theorem left_and_right_spec_witness :
    (jewel_center eLeft = some (0, 0) ∧ jewel_center eMid = some (2, 0)) ∧
    (left_and_right eLeft eMid = some (decide ((0 : ℤ) < 2)) ∧
      ((0 : ℤ) < 2 →
        left_and_right eLeft eMid = some true ∧
        left_and_right eMid eLeft = some false)) :=
  ⟨⟨by decide, by decide⟩,
    left_and_right_spec eLeft eMid (0, 0) (2, 0) (by decide) (by decide)⟩

set_option maxRecDepth 8000 in
/-- C3 (confirmed): for a 4-channel cutout with a nonempty thresholded
mask, the anchor has `x` the truncated centroid column `m10 / m00` and `y`
equal to `highest_y + (lowest_y - highest_y) / 11` over the extremal
foreground rows; a cutout whose foreground spans rows 0 through 109
yields `y = 9`. -/
theorem jewel_anchor_point_spec (img : ImgA) (h4 : img.channels = 4)
    (hm : (binMask img).Nonempty) :
    (∃ ytop ybot : ℤ,
      (ytop ∈ (binMask img).image Prod.fst ∧
        ∀ r ∈ (binMask img).image Prod.fst, ytop ≤ r) ∧
      (ybot ∈ (binMask img).image Prod.fst ∧
        ∀ r ∈ (binMask img).image Prod.fst, r ≤ ybot) ∧
      jewel_anchor_point img =
        some (m10 img / (m00 img : ℤ), ytop + (ybot - ytop) / 11)) ∧
    jewel_anchor_point imgSpan = some (0, 9) := by
  constructor
  · have hne : ((binMask img).image Prod.fst).Nonempty := hm.image _
    have hm0 : m00 img ≠ 0 :=
      Nat.pos_iff_ne_zero.1 (Finset.card_pos.2 hm)
    refine ⟨((binMask img).image Prod.fst).min' hne,
      ((binMask img).image Prod.fst).max' hne,
      ⟨Finset.min'_mem _ hne, fun r hr => Finset.min'_le _ r hr⟩,
      ⟨Finset.max'_mem _ hne, fun r hr => Finset.le_max' _ r hr⟩, ?_⟩
    rw [jewel_anchor_point, if_pos h4, if_pos hm0, dif_pos hne]
  · decide

set_option maxRecDepth 8000 in
/-- C3, witness: the theorem applied to the concrete cutout spanning rows
0 through 109. -/
theorem jewel_anchor_point_spec_witness :
    (imgSpan.channels = 4 ∧ (binMask imgSpan).Nonempty) ∧
    ((∃ ytop ybot : ℤ,
      (ytop ∈ (binMask imgSpan).image Prod.fst ∧
        ∀ r ∈ (binMask imgSpan).image Prod.fst, ytop ≤ r) ∧
      (ybot ∈ (binMask imgSpan).image Prod.fst ∧
        ∀ r ∈ (binMask imgSpan).image Prod.fst, r ≤ ybot) ∧
      jewel_anchor_point imgSpan =
        some (m10 imgSpan / (m00 imgSpan : ℤ), ytop + (ybot - ytop) / 11)) ∧
    jewel_anchor_point imgSpan = some (0, 9)) :=
  ⟨⟨rfl, by decide⟩, jewel_anchor_point_spec imgSpan rfl (by decide)⟩

/-- C7 (confirmed): a missing transparency channel or an empty thresholded
mask makes `jewel_center` and `jewel_anchor_point` return `None` (no
division is reached, no `(0, 0)` fallback), and any defined centroid or
anchor certifies a 4-channel image with a nonempty mask. -/
theorem jewel_degenerate_guard (img : ImgA) :
    (img.channels ≠ 4 →
      jewel_center img = none ∧ jewel_anchor_point img = none) ∧
    (m00 img = 0 →
      jewel_center img = none ∧ jewel_anchor_point img = none) ∧
    (∀ c, jewel_center img = some c → img.channels = 4 ∧ m00 img ≠ 0) ∧
    (∀ c, jewel_anchor_point img = some c →
      img.channels = 4 ∧ m00 img ≠ 0) := by
  refine ⟨?_, ?_, ?_, ?_⟩
  · intro hne
    constructor
    · rw [jewel_center, if_neg hne]
    · rw [jewel_anchor_point, if_neg hne]
  · intro h0
    have hnn : ¬ m00 img ≠ 0 := by omega
    constructor
    · rw [jewel_center]
      split_ifs with h4
      · rfl
      · rfl
    · rw [jewel_anchor_point]
      split_ifs with h4
      · rfl
      · rfl
  · intro c hc
    rw [jewel_center] at hc
    split_ifs at hc with hc4 hcm
    exact ⟨hc4, hcm⟩
  · intro c hc
    rw [jewel_anchor_point] at hc
    split_ifs at hc with hc4 hcm hcy
    exact ⟨hc4, hcm⟩

/-- C7, witness: the theorem applied to a 3-channel image and to a fully
transparent 4-channel image. -/
theorem jewel_degenerate_guard_witness :
    (imgRGB.channels ≠ 4 ∧
      (jewel_center imgRGB = none ∧ jewel_anchor_point imgRGB = none)) ∧
    (m00 imgTransparent = 0 ∧
      (jewel_center imgTransparent = none ∧
        jewel_anchor_point imgTransparent = none)) :=
  ⟨⟨by decide, (jewel_degenerate_guard imgRGB).1 (by decide)⟩,
    ⟨by decide, (jewel_degenerate_guard imgTransparent).2.1 (by decide)⟩⟩

/-- C8 (code bug): on a jewelry image with no positive first-channel
pixel, seed selection yields `None` and the pipeline produces fully
transparent cutouts; `left_and_right` then evaluates
`jewel_center(...)[0]` with `jewel_center` returning `None`, an uncaught
`TypeError` (modelled as the `none` result) rather than a typed
recoverable empty-result signal. -/
theorem no_foreground_pipeline_crash :
    find_nonzero_pixel imgZeroTwo 2 2 = none ∧
    fill_contour (get_contour (∅ : Finset Pix) 2 2) 2 2 = ∅ ∧
    jewel_center imgTransparent = none ∧
    left_and_right imgTransparent imgTransparent = none := by
  refine ⟨by decide, by decide, by decide, by decide⟩

/-- C9 (confirmed): with no detection from the secondary earlobe pass,
`model_anchor_point` hits the bare assertion (modelled as `none`) and
never returns an anchor coordinate; any returned coordinate certifies a
nonempty detection list. -/
theorem model_anchor_point_empty (x y w h : ℤ) :
    model_anchor_point [] x y w h = none ∧
    (∀ (dets : List (ℤ × ℤ × ℤ × ℤ)) (r : ℤ × ℤ),
      model_anchor_point dets x y w h = some r → dets ≠ []) := by
  constructor
  · rfl
  · intro dets r hr hnil
    subst hnil
    simp [model_anchor_point] at hr

/-- C9, witness: the theorem applied at a concrete box. -/
theorem model_anchor_point_empty_witness :
    model_anchor_point [] 1 2 3 4 = none ∧
    ([((5 : ℤ), (6 : ℤ), (7 : ℤ), (8 : ℤ))] :
      List (ℤ × ℤ × ℤ × ℤ)) ≠ [] :=
  ⟨(model_anchor_point_empty 1 2 3 4).1, by decide⟩

/-- C4 (confirmed): for every box and floor, the adjusted crop starts at
the symmetric padding/shrinking offset in each dimension and spans exactly
the floor in width and height (the odd remainder goes to the end); the
box `(10, 10, 100, 50)` with floor 224 becomes `(-52, -77, 172, 147)`,
i.e. 124 split 62/62 around `x` and 174 split 87/87 around `y`. -/
theorem adjust_crop_area_spec (x y w h m : ℤ) :
    adjust_crop_area x y w h m =
      (cropStart x w m, cropStart y h m,
        cropStart x w m + m, cropStart y h m + m) ∧
    (adjust_crop_area x y w h m).2.2.1 - (adjust_crop_area x y w h m).1 = m ∧
    (adjust_crop_area x y w h m).2.2.2 - (adjust_crop_area x y w h m).2.1 = m ∧
    adjust_crop_area 10 10 100 50 224 = (-52, -77, 172, 147) := by
  have hSE : ∀ s sz : ℤ, adjustSE s (s + sz) sz m =
      (cropStart s sz m, cropStart s sz m + m) := by
    intro s sz
    unfold adjustSE cropStart
    split_ifs with hc1 hc2 <;> simp only [Prod.mk.injEq, true_and, and_true] <;>
      omega
  have hmain : adjust_crop_area x y w h m =
      (cropStart x w m, cropStart y h m,
        cropStart x w m + m, cropStart y h m + m) := by
    unfold adjust_crop_area
    rw [hSE x w, hSE y h]
  refine ⟨hmain, ?_, ?_, by decide⟩
  · rw [hmain]
    show cropStart x w m + m - cropStart x w m = m
    omega
  · rw [hmain]
    show cropStart y h m + m - cropStart y h m = m
    omega

/-- C10 (confirmed): `adjust_crop_area` consults no image dimensions and
never clamps: for a box narrower than the floor the returned start column
is exactly `x - (224 - w) / 2`, which is negative whenever
`x < (224 - w) / 2` (and likewise for the rows), and
`model_anchor_point` offsets the detected box centre by exactly this
possibly negative crop origin. -/
theorem adjust_crop_area_no_clamp (x y w h : ℤ) (hw : w < 224)
    (hx : x < (224 - w) / 2) :
    (adjust_crop_area x y w h 224).1 = x - (224 - w) / 2 ∧
    (adjust_crop_area x y w h 224).1 < 0 ∧
    (h < 224 → (adjust_crop_area x y w h 224).2.1 = y - (224 - h) / 2 ∧
      (y < (224 - h) / 2 → (adjust_crop_area x y w h 224).2.1 < 0)) ∧
    (∀ (d : ℤ × ℤ × ℤ × ℤ) (ds : List (ℤ × ℤ × ℤ × ℤ)),
      model_anchor_point (d :: ds) x y w h =
        some ((adjust_crop_area x y w h 224).1 + (d.1 + d.2.2.1 / 2),
          (adjust_crop_area x y w h 224).2.1 + (d.2.1 + d.2.2.2 / 2))) := by
  have hxeq : (adjust_crop_area x y w h 224).1 = x - (224 - w) / 2 := by
    unfold adjust_crop_area adjustSE
    rw [if_pos hw]
  refine ⟨hxeq, by omega, ?_, fun d ds => rfl⟩
  intro hh
  have hyeq : (adjust_crop_area x y w h 224).2.1 = y - (224 - h) / 2 := by
    unfold adjust_crop_area adjustSE
    rw [if_pos hw, if_pos hh]
  exact ⟨hyeq, fun hy => by omega⟩

/-- C10, witness: the theorem applied to the box `(10, 10, 100, 50)`. -/
theorem adjust_crop_area_no_clamp_witness :
    ((100 : ℤ) < 224 ∧ (10 : ℤ) < (224 - 100) / 2) ∧
    ((adjust_crop_area 10 10 100 50 224).1 = 10 - (224 - 100) / 2 ∧
    (adjust_crop_area 10 10 100 50 224).1 < 0 ∧
    ((50 : ℤ) < 224 →
      (adjust_crop_area 10 10 100 50 224).2.1 = 10 - (224 - 50) / 2 ∧
      ((10 : ℤ) < (224 - 50) / 2 →
        (adjust_crop_area 10 10 100 50 224).2.1 < 0)) ∧
    (∀ (d : ℤ × ℤ × ℤ × ℤ) (ds : List (ℤ × ℤ × ℤ × ℤ)),
      model_anchor_point (d :: ds) 10 10 100 50 =
        some ((adjust_crop_area 10 10 100 50 224).1 + (d.1 + d.2.2.1 / 2),
          (adjust_crop_area 10 10 100 50 224).2.1 + (d.2.1 + d.2.2.2 / 2)))) :=
  ⟨by decide, adjust_crop_area_no_clamp 10 10 100 50 (by decide) (by decide)⟩

end Earring
